import Mathlib

/-!
Verification of the job-control engine of tsh.c (spencer4404/tiny-shell).

The C source is shallowly embedded: the global job array `struct job_t jobs[MAXJOBS]`
together with the rolling counter `nextjid` is modelled as a `List job_t` plus an `Int`;
`pid_t` and the C `int` fields are modelled as `Int`. Every function below is a direct
transcription of the corresponding function in src/tsh.c (the C loops become structural
recursions over the slot list, scanning slots in the same order and stopping at the
first match, exactly as the loops do). Output produced with printf is collected in
`List String` fields, and signals sent with kill are collected as `(target, signum)`
pairs, so that the pure functions expose the same observable behaviour as the C code.
-/

set_option linter.unusedVariables false

namespace Tsh

/-- Job states, mirroring the defines UNDEF/FG/BG/ST in src/tsh.c. -/
inductive JobState where
  | UNDEF
  | FG
  | BG
  | ST
deriving DecidableEq, Repr

/-- MAXJOBS from tsh.c: max jobs at any point in time (16). -/
def MAXJOBS : Int := 16

/-- MAXJID from tsh.c (`1 << 16`): declared "max job ID". Note that the code never
uses this constant: the wrap test in addjob compares against MAXJOBS. -/
def MAXJID : Int := 65536

/-- The job struct from tsh.c: pid, jid, state and command line. -/
structure job_t where
  pid : Int
  jid : Int
  state : JobState
  cmdline : String
deriving DecidableEq, Repr

/-- clearjob from tsh.c: the all-clear job record (pid 0, jid 0, UNDEF, empty text). -/
def clearjob : job_t := ⟨0, 0, .UNDEF, ""⟩

/-- initjobs from tsh.c: every slot of the table starts cleared. -/
def initjobs (n : Nat) : List job_t := List.replicate n clearjob

/-- maxjid from tsh.c: largest allocated job ID over all slots (0 when none is larger).
The C loop folds max over the slots; the fold order does not change the maximum. -/
def maxjid : List job_t → Int
  | [] => 0
  | j :: rest => let m := maxjid rest; if j.jid > m then j.jid else m

/-- Result of addjob: the updated table, the updated `nextjid` counter, the C return
value (1 = success, 0 = failure) as a Bool, and the printf output it produced. -/
structure AddResult where
  jobs : List job_t
  nextjid : Int
  ok : Bool
  output : List String
deriving DecidableEq, Repr

/-- The slot-scan loop of addjob from tsh.c: find the first slot with pid == 0, store
the new record there with jid = nextjid, and advance nextjid (wrapping to 1 when the
incremented counter exceeds MAXJOBS). Returns the new list, the assigned jid and the
new counter; `none` when no empty slot exists. -/
def addjobGo (pid : Int) (st : JobState) (cmdline : String) (nj : Int) :
    List job_t → Option (List job_t × Int × Int)
  | [] => none
  | j :: rest =>
    if j.pid = 0 then
      some (⟨pid, nj, st, cmdline⟩ :: rest, nj, if nj + 1 > MAXJOBS then 1 else nj + 1)
    else
      match addjobGo pid st cmdline nj rest with
      | none => none
      | some (rest', a, nj') => some (j :: rest', a, nj')

/-- addjob from tsh.c. Fails silently for pid < 1; on a full table prints
"Tried to create too many jobs" and fails; in verbose mode reports the added job. -/
def addjob (verbose : Bool) (jobs : List job_t) (nj pid : Int) (st : JobState)
    (cmdline : String) : AddResult :=
  if pid < 1 then ⟨jobs, nj, false, []⟩
  else
    match addjobGo pid st cmdline nj jobs with
    | some (jobs', a, nj') =>
        ⟨jobs', nj', true,
          if verbose then
            ["Added job [" ++ toString a ++ "] " ++ toString pid ++ " " ++ cmdline ++ "\n"]
          else []⟩
    | none => ⟨jobs, nj, false, ["Tried to create too many jobs\n"]⟩

/-- Result of deletejob: updated table, updated counter, C return value. -/
structure DelResult where
  jobs : List job_t
  nextjid : Int
  ok : Bool
deriving DecidableEq, Repr

/-- The slot-scan loop of deletejob from tsh.c: clear the first slot whose pid
matches; `none` when no slot matches. -/
def deletejobGo (pid : Int) : List job_t → Option (List job_t)
  | [] => none
  | j :: rest =>
    if j.pid = pid then some (clearjob :: rest)
    else
      match deletejobGo pid rest with
      | none => none
      | some rest' => some (j :: rest')

/-- deletejob from tsh.c. Fails for pid < 1; on success clears the slot and
recomputes nextjid as maxjid(jobs) + 1 (with no wrap applied at this point). -/
def deletejob (jobs : List job_t) (nj pid : Int) : DelResult :=
  if pid < 1 then ⟨jobs, nj, false⟩
  else
    match deletejobGo pid jobs with
    | some jobs' => ⟨jobs', maxjid jobs' + 1, true⟩
    | none => ⟨jobs, nj, false⟩

/-- fgpid from tsh.c: pid of the first slot in state FG, or 0 when none exists. -/
def fgpid : List job_t → Int
  | [] => 0
  | j :: rest => if j.state = .FG then j.pid else fgpid rest

/-- The scan loop of getjobpid: first slot whose pid matches. -/
def getjobpidGo (pid : Int) : List job_t → Option job_t
  | [] => none
  | j :: rest => if j.pid = pid then some j else getjobpidGo pid rest

/-- getjobpid from tsh.c, with its defensive pid < 1 guard. -/
def getjobpid (jobs : List job_t) (pid : Int) : Option job_t :=
  if pid < 1 then none else getjobpidGo pid jobs

/-- The scan loop of getjobjid: first slot whose jid matches. -/
def getjobjidGo (jid : Int) : List job_t → Option job_t
  | [] => none
  | j :: rest => if j.jid = jid then some j else getjobjidGo jid rest

/-- getjobjid from tsh.c, with its defensive jid < 1 guard. -/
def getjobjid (jobs : List job_t) (jid : Int) : Option job_t :=
  if jid < 1 then none else getjobjidGo jid jobs

/-- The scan loop of pid2jid. -/
def pid2jidGo (pid : Int) : List job_t → Int
  | [] => 0
  | j :: rest => if j.pid = pid then j.jid else pid2jidGo pid rest

/-- pid2jid from tsh.c: jid of the first slot whose pid matches, 0 otherwise. -/
def pid2jid (jobs : List job_t) (pid : Int) : Int :=
  if pid < 1 then 0 else pid2jidGo pid jobs

/-- Writing `job->state = st` through the pointer returned by getjobpid updates the
first slot whose pid matches (and nothing when no slot matches). -/
def setStateByPid (pid : Int) (st : JobState) : List job_t → List job_t
  | [] => []
  | j :: rest =>
    if j.pid = pid then { j with state := st } :: rest
    else j :: setStateByPid pid st rest

/-- Writing `job->state = st` through the pointer returned by getjobjid updates the
first slot whose jid matches. -/
def setStateByJid (jid : Int) (st : JobState) : List job_t → List job_t
  | [] => []
  | j :: rest =>
    if j.jid = jid then { j with state := st } :: rest
    else j :: setStateByJid jid st rest

/-- The per-slot state label printed by listjobs (i is the slot index, used by the
internal-error line for an UNDEF state on an occupied slot). -/
def stateLabel (i : Nat) (s : JobState) : String :=
  match s with
  | .BG => "Running "
  | .FG => "Foreground "
  | .ST => "Stopped "
  | .UNDEF => "listjobs: Internal error: job[" ++ toString i ++ "].state=0 "

/-- The slot loop of listjobs, carrying the slot index. -/
def listjobsGo (i : Nat) : List job_t → List String
  | [] => []
  | j :: rest =>
    (if j.pid ≠ 0 then
      ["[" ++ toString j.jid ++ "] (" ++ toString j.pid ++ ") " ++ stateLabel i j.state ++ j.cmdline]
     else []) ++ listjobsGo (i + 1) rest

/-- listjobs from tsh.c: one line per occupied slot, in slot order. -/
def listjobs (jobs : List job_t) : List String := listjobsGo 0 jobs

/-- Number of slots currently in state FG. -/
def fgCount : List job_t → Nat
  | [] => 0
  | j :: rest => (if j.state = .FG then 1 else 0) + fgCount rest

/-- Number of slots whose pid field equals the given pid. -/
def pidCount (pid : Int) : List job_t → Nat
  | [] => 0
  | j :: rest => (if j.pid = pid then 1 else 0) + pidCount pid rest

/-- The job numbers of the occupied slots (slot order). -/
def occJids (jobs : List job_t) : List Int :=
  (jobs.filter (fun j => j.pid != 0)).map (fun j => j.jid)

/-! ### Basic lemmas about the table operations -/

theorem maxjid_cons (j : job_t) (rest : List job_t) :
    maxjid (j :: rest) = max j.jid (maxjid rest) := by
  simp only [maxjid]
  split <;> omega

theorem jid_le_maxjid {jobs : List job_t} {j : job_t} (h : j ∈ jobs) :
    j.jid ≤ maxjid jobs := by
  induction jobs with
  | nil => cases h
  | cons a rest ih =>
    rw [maxjid_cons]
    rcases List.mem_cons.mp h with rfl | hmem
    · exact le_max_left _ _
    · exact le_trans (ih hmem) (le_max_right _ _)

theorem maxjid_nonneg (jobs : List job_t) : 0 ≤ maxjid jobs := by
  induction jobs with
  | nil => simp [maxjid]
  | cons a rest ih => rw [maxjid_cons]; omega

/-! ### Claim C10: the pid < 1 guard on addjob and deletejob -/

/-- Claim C10 (confirmed). For every pid < 1 and every job-table state, both
addjob and deletejob return failure and leave every slot of the table and the
next-jid counter unchanged (and addjob prints nothing). -/
theorem claim_C10_pid_guard (verbose : Bool) (jobs : List job_t) (nj pid : Int)
    (st : JobState) (cmd : String) (h : pid < 1) :
    addjob verbose jobs nj pid st cmd = ⟨jobs, nj, false, []⟩ ∧
    deletejob jobs nj pid = ⟨jobs, nj, false⟩ := by
  constructor
  · simp [addjob, h]
  · simp [deletejob, h]

/-- Witness for C10 at pid = 0 on the initial 16-slot table. -/
theorem claim_C10_witness :
    addjob false (initjobs 16) 1 0 JobState.BG "cmd\n" = ⟨initjobs 16, 1, false, []⟩ ∧
    deletejob (initjobs 16) 1 0 = ⟨initjobs 16, 1, false⟩ :=
  claim_C10_pid_guard false (initjobs 16) 1 0 JobState.BG "cmd\n" (by decide)

/-! ### Claim C4: addjob on a full table -/

/-- A concrete full table: 16 occupied slots. -/
def fullTable : List job_t :=
  [⟨1, 1, .BG, ""⟩, ⟨2, 2, .BG, ""⟩, ⟨3, 3, .BG, ""⟩, ⟨4, 4, .BG, ""⟩,
   ⟨5, 5, .BG, ""⟩, ⟨6, 6, .BG, ""⟩, ⟨7, 7, .BG, ""⟩, ⟨8, 8, .BG, ""⟩,
   ⟨9, 9, .BG, ""⟩, ⟨10, 10, .BG, ""⟩, ⟨11, 11, .BG, ""⟩, ⟨12, 12, .BG, ""⟩,
   ⟨13, 13, .BG, ""⟩, ⟨14, 14, .BG, ""⟩, ⟨15, 15, .BG, ""⟩, ⟨16, 16, .BG, ""⟩]

/-- Counterexample to claim C4 as stated. The claim says every add on a table with
no empty slot "returns failure, reports the error, and leaves the table unchanged";
for pid = 0 on a full table the add fails and changes nothing, but the pid < 1 guard
returns before the capacity scan, so no error is reported (output is empty). -/
theorem claim_C4_counterexample :
    ¬ ((addjob false fullTable 1 0 JobState.BG "cmd\n").ok = false ∧
       (addjob false fullTable 1 0 JobState.BG "cmd\n").output ≠ [] ∧
       (addjob false fullTable 1 0 JobState.BG "cmd\n").jobs = fullTable ∧
       (addjob false fullTable 1 0 JobState.BG "cmd\n").nextjid = 1) := by
  intro h
  exact h.2.1 rfl

theorem addjobGo_of_full {jobs : List job_t} (hfull : ∀ j ∈ jobs, j.pid ≠ 0)
    (pid : Int) (st : JobState) (cmd : String) (nj : Int) :
    addjobGo pid st cmd nj jobs = none := by
  induction jobs with
  | nil => rfl
  | cons j rest ih =>
    have hj : j.pid ≠ 0 := hfull j (List.mem_cons_self j rest)
    simp only [addjobGo, if_neg hj]
    rw [ih (fun x hx => hfull x (List.mem_cons_of_mem j hx))]

/-- Claim C4 (amended). For every job table in which no empty slot exists and every
pid ≥ 1, addjob returns failure, reports "Tried to create too many jobs", and leaves
every slot of the table and the next-jid counter unchanged; for pid < 1 the add also
fails and changes nothing, but silently (see the counterexample). -/
theorem claim_C4_table_full (verbose : Bool) (jobs : List job_t) (nj pid : Int)
    (st : JobState) (cmd : String) (hfull : ∀ j ∈ jobs, j.pid ≠ 0) (hpid : 1 ≤ pid) :
    addjob verbose jobs nj pid st cmd =
      ⟨jobs, nj, false, ["Tried to create too many jobs\n"]⟩ := by
  have h1 : ¬ pid < 1 := by omega
  simp [addjob, h1, addjobGo_of_full hfull]

/-- Witness for C4 on the concrete full table with pid 99. -/
theorem claim_C4_witness :
    addjob false fullTable 1 99 JobState.BG "cmd\n" =
      ⟨fullTable, 1, false, ["Tried to create too many jobs\n"]⟩ :=
  claim_C4_table_full false fullTable 1 99 JobState.BG "cmd\n" (by decide) (by decide)

/-! ### Claim C5: the next-jid counter after remove and its use by add -/

/-- A concrete occupied table holding jids 70000 and 1 (job numbers can legally grow
past both MAXJOBS = 16 and MAXJID = 65536 within one run, because deletejob sets
nextjid to maxjid + 1 without ever wrapping). -/
def c5Table : List job_t :=
  ⟨2, 70000, .BG, ""⟩ :: ⟨3, 1, .BG, ""⟩ :: initjobs 14

/-- Counterexample to claim C5 as stated. Removing pid 3 from `c5Table` succeeds and
recomputes the counter as max(remaining jids) + 1 = 70001, which exceeds the table's
numeric ceiling under either reading (MAXJOBS = 16 or MAXJID = 65536), yet the code
does not wrap it back to 1: deletejob applies no wrap at all. -/
theorem claim_C5_counterexample :
    (deletejob c5Table 1 3).ok = true ∧
    (deletejob c5Table 1 3).nextjid = 70001 ∧
    ¬ (deletejob c5Table 1 3).nextjid = 1 := by
  refine ⟨rfl, rfl, ?_⟩
  intro h
  simp [deletejob, deletejobGo, c5Table, initjobs, clearjob, maxjid] at h

theorem addjobGo_spec (pid : Int) (st : JobState) (cmd : String) (nj : Int) :
    ∀ (jobs js' : List job_t) (a nj' : Int),
      addjobGo pid st cmd nj jobs = some (js', a, nj') →
      a = nj ∧ nj' = (if nj + 1 > MAXJOBS then 1 else nj + 1) ∧
      ((∀ j ∈ jobs, j.pid ≠ pid) → pid2jidGo pid js' = nj) := by
  intro jobs
  induction jobs with
  | nil => intro js' a nj' h; cases h
  | cons j rest ih =>
    intro js' a nj' h
    by_cases hj : j.pid = 0
    · simp only [addjobGo, if_pos hj, Option.some.injEq, Prod.mk.injEq] at h
      obtain ⟨h1, h2, h3⟩ := h
      subst h1; subst h2; subst h3
      refine ⟨rfl, rfl, fun hfresh => ?_⟩
      simp [pid2jidGo]
    · simp only [addjobGo, if_neg hj] at h
      cases hgo : addjobGo pid st cmd nj rest with
      | none => rw [hgo] at h; cases h
      | some r =>
        obtain ⟨rest', a', nj''⟩ := r
        rw [hgo] at h
        simp only [Option.some.injEq, Prod.mk.injEq] at h
        obtain ⟨h1, h2, h3⟩ := h
        obtain ⟨ha, hnj, hp⟩ := ih rest' a' nj'' hgo
        subst h1; subst h2; subst h3
        refine ⟨ha, hnj, fun hfresh => ?_⟩
        have hne : j.pid ≠ pid := hfresh j (List.mem_cons_self j rest)
        simp only [pid2jidGo, if_neg hne]
        exact hp (fun x hx => hfresh x (List.mem_cons_of_mem j hx))

/-- Claim C5 (amended). On every successful remove, the counter is recomputed as
max(job numbers of the remaining slots) + 1 with no wrap applied at remove time;
every successful add assigns the current counter value as the new record's job
number, and the wrap to 1 is applied only to the incremented counter inside add,
when it would exceed MAXJOBS (16). -/
theorem claim_C5_counter_recompute (verbose : Bool) (jobs : List job_t) (nj pid : Int)
    (st : JobState) (cmd : String) :
    ((deletejob jobs nj pid).ok = true →
       (deletejob jobs nj pid).nextjid = maxjid (deletejob jobs nj pid).jobs + 1) ∧
    ((addjob verbose jobs nj pid st cmd).ok = true →
       (∀ j ∈ jobs, j.pid ≠ pid) →
       pid2jid (addjob verbose jobs nj pid st cmd).jobs pid = nj ∧
       (addjob verbose jobs nj pid st cmd).nextjid =
         (if nj + 1 > MAXJOBS then 1 else nj + 1)) := by
  constructor
  · intro hok
    by_cases h1 : pid < 1
    · simp [deletejob, h1] at hok
    · cases hgo : deletejobGo pid jobs with
      | none => simp [deletejob, h1, hgo] at hok
      | some jobs' => simp [deletejob, h1, hgo]
  · intro hok hfresh
    by_cases h1 : pid < 1
    · simp [addjob, h1] at hok
    · cases hgo : addjobGo pid st cmd nj jobs with
      | none => simp [addjob, h1, hgo] at hok
      | some r =>
        obtain ⟨js', a, nj'⟩ := r
        obtain ⟨ha, hnj, hp⟩ := addjobGo_spec pid st cmd nj jobs js' a nj' hgo
        simp [addjob, h1, hgo, pid2jid, hp hfresh, hnj]

/-- Witness for C5: the delete conjunct at `c5Table` with pid 3, and the add
conjunct on the initial table with fresh pid 9. -/
theorem claim_C5_witness :
    (deletejob c5Table 1 3).nextjid = maxjid (deletejob c5Table 1 3).jobs + 1 ∧
    (pid2jid (addjob false (initjobs 16) 1 9 JobState.BG "x\n").jobs 9 = 1 ∧
     (addjob false (initjobs 16) 1 9 JobState.BG "x\n").nextjid =
       (if (1 : Int) + 1 > MAXJOBS then 1 else 1 + 1)) :=
  ⟨(claim_C5_counter_recompute false c5Table 1 3 JobState.BG "x\n").1 (by decide),
   (claim_C5_counter_recompute false (initjobs 16) 1 9 JobState.BG "x\n").2
     (by decide) (by decide)⟩

/-! ### The signal-driven reaper (sigchld_handler) -/

/-- What one waitpid(-1, &status, WNOHANG | WUNTRACED) poll reports for a reaped
child: stopped by a signal (WIFSTOPPED), terminated by an uncaught signal
(WIFSIGNALED), or exited normally (WIFEXITED). -/
inductive ChildStatus where
  | stopped (sig : Nat)
  | signaled (sig : Nat)
  | exited (code : Nat)
deriving DecidableEq, Repr

/-- The notice printed for a child stopped by a signal. -/
def stopMsg (jid pid : Int) (sig : Nat) : String :=
  "Job [" ++ toString jid ++ "] (" ++ toString pid ++ ") stopped by signal " ++
    toString sig ++ "\n"

/-- The notice printed for a child terminated by an uncaught signal. -/
def termMsg (jid pid : Int) (sig : Nat) : String :=
  "Job [" ++ toString jid ++ "] (" ++ toString pid ++ ") terminated by signal " ++
    toString sig ++ "\n"

/-- Result of a reaper step: updated table, updated counter, printed notices. -/
structure ReapResult where
  jobs : List job_t
  nextjid : Int
  output : List String
deriving DecidableEq, Repr

/-- One iteration of the waitpid drain loop of sigchld_handler in tsh.c, handling
the notification (pid, status). The C code blocks all signals around the body, so
the iteration is atomic with respect to the main flow; the pure function models the
whole iteration. -/
def handleNotification (jobs : List job_t) (nj pid : Int) (st : ChildStatus) :
    ReapResult :=
  match st with
  | .stopped sig =>
    match getjobpid jobs pid with
    | some job => ⟨setStateByPid pid .ST jobs, nj, [stopMsg job.jid job.pid sig]⟩
    | none => ⟨jobs, nj, []⟩
  | .signaled sig =>
    match getjobpid jobs pid with
    | some job =>
      let d := deletejob jobs nj pid
      ⟨d.jobs, d.nextjid, [termMsg job.jid job.pid sig]⟩
    | none => ⟨jobs, nj, []⟩
  | .exited _ =>
    let d := deletejob jobs nj pid
    ⟨d.jobs, d.nextjid, []⟩

/-- One invocation of sigchld_handler drains every currently queued notification,
handling them in order. -/
def sigchld_handler (jobs : List job_t) (nj : Int) :
    List (Int × ChildStatus) → ReapResult
  | [] => ⟨jobs, nj, []⟩
  | (pid, st) :: rest =>
    let r := handleNotification jobs nj pid st
    let r' := sigchld_handler r.jobs r.nextjid rest
    ⟨r'.jobs, r'.nextjid, r.output ++ r'.output⟩

theorem pidCount_zero_none {pid : Int} :
    ∀ {js : List job_t}, pidCount pid js = 0 → getjobpidGo pid js = none := by
  intro js
  induction js with
  | nil => intro _; rfl
  | cons j rest ih =>
    intro h
    simp only [pidCount] at h
    by_cases hj : j.pid = pid
    · rw [if_pos hj] at h; omega
    · rw [if_neg hj] at h
      simp only [getjobpidGo, if_neg hj]
      exact ih (by omega)

theorem getjobpidGo_setState {pid : Int} (st : JobState) :
    ∀ {js : List job_t} {job : job_t}, getjobpidGo pid js = some job →
      getjobpidGo pid (setStateByPid pid st js) = some { job with state := st } := by
  intro js
  induction js with
  | nil => intro job h; cases h
  | cons j rest ih =>
    intro job h
    by_cases hj : j.pid = pid
    · simp only [getjobpidGo, if_pos hj, Option.some.injEq] at h
      subst h
      simp [setStateByPid, getjobpidGo, hj]
    · simp only [getjobpidGo, if_neg hj] at h
      simp only [setStateByPid, if_neg hj, getjobpidGo]
      exact ih h

theorem getjobpidGo_none_delete {pid : Int} :
    ∀ {js : List job_t}, getjobpidGo pid js = none → deletejobGo pid js = none := by
  intro js
  induction js with
  | nil => intro _; rfl
  | cons j rest ih =>
    intro h
    by_cases hj : j.pid = pid
    · simp [getjobpidGo, if_pos hj] at h
    · simp only [getjobpidGo, if_neg hj] at h
      simp only [deletejobGo, if_neg hj]
      rw [ih h]

theorem deletejobGo_removes {pid : Int} (hp : pid ≠ 0) :
    ∀ {js : List job_t} {job : job_t}, getjobpidGo pid js = some job →
      pidCount pid js ≤ 1 →
      ∃ js', deletejobGo pid js = some js' ∧ getjobpidGo pid js' = none := by
  intro js
  induction js with
  | nil => intro job h; cases h
  | cons j rest ih =>
    intro job h hcnt
    simp only [pidCount] at hcnt
    by_cases hj : j.pid = pid
    · rw [if_pos hj] at hcnt
      have hrest : pidCount pid rest = 0 := by omega
      refine ⟨clearjob :: rest, by simp [deletejobGo, hj], ?_⟩
      have hcl : clearjob.pid ≠ pid := by
        simpa [clearjob] using (Ne.symm hp)
      simp only [getjobpidGo, if_neg hcl]
      exact pidCount_zero_none hrest
    · rw [if_neg hj] at hcnt
      simp only [getjobpidGo, if_neg hj] at h
      obtain ⟨js', hdel, hnone⟩ := ih h (by omega)
      refine ⟨j :: js', ?_, ?_⟩
      · simp only [deletejobGo, if_neg hj]
        rw [hdel]
      · simp only [getjobpidGo, if_neg hj]
        exact hnone

theorem getjobpid_delete_none {jobs : List job_t} {nj pid : Int} {job : job_t}
    (huniq : pidCount pid jobs ≤ 1) (h : getjobpid jobs pid = some job) :
    getjobpid (deletejob jobs nj pid).jobs pid = none := by
  by_cases h1 : pid < 1
  · simp [getjobpid, h1] at h
  · have hp : pid ≠ 0 := by omega
    simp only [getjobpid, if_neg h1] at h
    obtain ⟨js', hdel, hnone⟩ := deletejobGo_removes hp h huniq
    simp [deletejob, if_neg h1, hdel, getjobpid, hnone]

theorem getjobpid_none_delete_id {jobs : List job_t} {nj pid : Int}
    (h : getjobpid jobs pid = none) : deletejob jobs nj pid = ⟨jobs, nj, false⟩ := by
  by_cases h1 : pid < 1
  · simp [deletejob, h1]
  · simp only [getjobpid, if_neg h1] at h
    simp [deletejob, if_neg h1, getjobpidGo_none_delete h]

/-- Claim C3 (confirmed). One reaper iteration handles a notification exactly as the
spec says (the `pidCount` hypothesis — pids identify at most one slot — is the table
invariant the removal observation needs): a stopped child with a job record gets its
record's state set to Stopped and a stopped-by-signal notice; a signal-terminated
child with a record gets a terminated-by-signal notice and its record removed; a
normally exited child gets its record removed with no notice; and a notification
for a pid with no matching record leaves table, counter and output untouched. -/
theorem claim_C3_reaper_cases (jobs : List job_t) (nj pid : Int) (sig code : Nat)
    (huniq : pidCount pid jobs ≤ 1) :
    (∀ job, getjobpid jobs pid = some job →
        handleNotification jobs nj pid (.stopped sig) =
          ⟨setStateByPid pid .ST jobs, nj, [stopMsg job.jid job.pid sig]⟩ ∧
        getjobpid (setStateByPid pid .ST jobs) pid = some { job with state := .ST }) ∧
    (∀ job, getjobpid jobs pid = some job →
        (handleNotification jobs nj pid (.signaled sig)).output =
          [termMsg job.jid job.pid sig] ∧
        getjobpid (handleNotification jobs nj pid (.signaled sig)).jobs pid = none) ∧
    (∀ job, getjobpid jobs pid = some job →
        (handleNotification jobs nj pid (.exited code)).output = [] ∧
        getjobpid (handleNotification jobs nj pid (.exited code)).jobs pid = none) ∧
    (getjobpid jobs pid = none →
        ∀ st : ChildStatus, handleNotification jobs nj pid st = ⟨jobs, nj, []⟩) := by
  refine ⟨?_, ?_, ?_, ?_⟩
  · intro job h
    constructor
    · simp [handleNotification, h]
    · by_cases h1 : pid < 1
      · simp [getjobpid, h1] at h
      · simp only [getjobpid, if_neg h1] at h ⊢
        exact getjobpidGo_setState _ h
  · intro job h
    constructor
    · simp [handleNotification, h]
    · simp only [handleNotification, h]
      exact getjobpid_delete_none huniq h
  · intro job h
    constructor
    · simp [handleNotification]
    · simp only [handleNotification]
      exact getjobpid_delete_none huniq h
  · intro h st
    cases st with
    | stopped sig => simp [handleNotification, h]
    | signaled sig => simp [handleNotification, h]
    | exited code =>
      simp only [handleNotification]
      rw [getjobpid_none_delete_id h]

/-- Witness for C3: a table holding the single job (pid 10, jid 3, BG), reaped with
each kind of notification; plus the no-record case at pid 999. -/
theorem claim_C3_witness :
    (handleNotification [⟨10, 3, .BG, "x\n"⟩] 4 10 (.stopped 20) =
       ⟨[⟨10, 3, .ST, "x\n"⟩], 4, [stopMsg 3 10 20]⟩ ∧
     getjobpid (handleNotification [⟨10, 3, .BG, "x\n"⟩] 4 10 (.signaled 2)).jobs 10 =
       none ∧
     (handleNotification [⟨10, 3, .BG, "x\n"⟩] 4 10 (.exited 0)).output = [] ∧
     getjobpid (handleNotification [⟨10, 3, .BG, "x\n"⟩] 4 10 (.exited 0)).jobs 10 =
       none) ∧
    handleNotification [⟨10, 3, .BG, "x\n"⟩] 4 999 (.exited 0) =
      ⟨[⟨10, 3, .BG, "x\n"⟩], 4, []⟩ := by
  have h10 := claim_C3_reaper_cases [⟨10, 3, .BG, "x\n"⟩] 4 10 20 0 (by decide)
  have h999 := claim_C3_reaper_cases [⟨10, 3, .BG, "x\n"⟩] 4 999 2 0 (by decide)
  have hsome : getjobpid [(⟨10, 3, .BG, "x\n"⟩ : job_t)] 10 = some ⟨10, 3, .BG, "x\n"⟩ := by
    decide
  have hnone : getjobpid [(⟨10, 3, .BG, "x\n"⟩ : job_t)] 999 = none := by decide
  refine ⟨⟨?_, ?_, ?_, ?_⟩, ?_⟩
  · have := (h10.1 _ hsome).1
    simpa [setStateByPid] using this
  · exact ((claim_C3_reaper_cases [⟨10, 3, .BG, "x\n"⟩] 4 10 2 0 (by decide)).2.1
      _ hsome).2
  · exact (h10.2.2.1 _ hsome).1
  · exact (h10.2.2.1 _ hsome).2
  · exact h999.2.2.2 hnone (.exited 0)

/-! ### The bg/fg builtin (do_bgfg) -/

/-- The whitespace class of C isspace, used by atoi. -/
def isspaceC (c : Char) : Bool :=
  (c == ' ') || (c == '\t') || (c == '\n') || (c == '\x0b') || (c == '\x0c') ||
    (c == '\r')

/-- The digit-accumulation loop of C atoi. -/
def atoiLoop : List Char → Int → Int
  | [], acc => acc
  | c :: rest, acc =>
    if c.isDigit then atoiLoop rest (acc * 10 + ((c.toNat : Int) - 48)) else acc

/-- C atoi: skip leading whitespace, read an optional sign, then the digit prefix
(0 when no digits follow, e.g. atoi "abc" = 0; trailing garbage is ignored,
e.g. atoi "5x" = 5). -/
def atoi (s : String) : Int :=
  match s.data.dropWhile isspaceC with
  | '-' :: rest => - atoiLoop rest 0
  | '+' :: rest => atoiLoop rest 0
  | cs => atoiLoop cs 0

/-- Signal numbers (Linux defaults); the shell sends these with kill. -/
def SIGINT : Nat := 2

def SIGCONT : Nat := 18

def SIGTSTP : Nat := 20

/-- Result of do_bgfg: updated table, the kill calls made (first kill argument,
signal number), the printf output, and the pid passed to waitfg when the fg path
blocks. -/
structure BgfgResult where
  jobs : List job_t
  signals : List (Int × Nat)
  output : List String
  waitPid : Option Int
deriving DecidableEq, Repr

/-- The usage-error line of do_bgfg. -/
def usageMsg (cmdName : String) : String :=
  cmdName ++ ": argument must be a PID or %jobid\n"

/-- The missing-argument line of do_bgfg. -/
def reqMsg (cmdName : String) : String :=
  cmdName ++ " command requires PID or %jobid argument\n"

/-- The background-job report line shared by do_bgfg and the background launch. -/
def bgMsg (job : job_t) : String :=
  "[" ++ toString job.jid ++ "] (" ++ toString job.pid ++ ") " ++ job.cmdline

/-- do_bgfg from tsh.c. cmdName is argv[0] ("bg" or "fg"), arg is argv[1]. The
target is classified by its first character: '%' means a job id (atoi of the rest),
a digit means a pid (atoi of the whole token), anything else is a usage error. On a
resolved target the shell sends SIGCONT to the process group -pid, then flips the
record's state (through the pointer the lookup returned) and either blocks on
waitfg (fg) or prints the job line (bg). -/
def do_bgfg (cmdName : String) (arg : Option String) (jobs : List job_t) :
    BgfgResult :=
  match arg with
  | none => ⟨jobs, [], [reqMsg cmdName], none⟩
  | some id =>
    match id.data with
    | [] => ⟨jobs, [], [usageMsg cmdName], none⟩
    | c :: rest =>
      if c = '%' then
        let jid := atoi (String.mk rest)
        match getjobjid jobs jid with
        | none => ⟨jobs, [], [id ++ ": No such job\n"], none⟩
        | some job =>
          if cmdName = "fg" then
            ⟨setStateByJid jid .FG jobs, [(-job.pid, SIGCONT)], [], some job.pid⟩
          else if cmdName = "bg" then
            ⟨setStateByJid jid .BG jobs, [(-job.pid, SIGCONT)], [bgMsg job], none⟩
          else ⟨jobs, [(-job.pid, SIGCONT)], [], none⟩
      else if c.isDigit then
        let pid := atoi id
        match getjobpid jobs pid with
        | none => ⟨jobs, [], ["(" ++ toString pid ++ "): No such process\n"], none⟩
        | some job =>
          if cmdName = "fg" then
            ⟨setStateByPid pid .FG jobs, [(-job.pid, SIGCONT)], [], some job.pid⟩
          else if cmdName = "bg" then
            ⟨setStateByPid pid .BG jobs, [(-job.pid, SIGCONT)], [bgMsg job], none⟩
          else ⟨jobs, [(-job.pid, SIGCONT)], [], none⟩
      else ⟨jobs, [], [usageMsg cmdName], none⟩

/-- A table holding one stopped job, pid 100, jid 5. -/
def jobs5 : List job_t := ⟨100, 5, .ST, "sleep 100 &\n"⟩ :: initjobs 15

/-- Counterexample to claim C7 as stated. "%5x" is malformed (neither '%' followed
by digits nor a bare digit string), so the claim requires a usage error, no job
state change and no signal. But the code takes the '%' branch, atoi("5x") = 5
resolves to the stopped job jid 5, so `bg %5x` sends SIGCONT to process group
-100, flips the record to Background and prints the job line instead. -/
theorem claim_C7_counterexample :
    ¬ ((do_bgfg "bg" (some "%5x") jobs5).output = [usageMsg "bg"] ∧
       (do_bgfg "bg" (some "%5x") jobs5).jobs = jobs5 ∧
       (do_bgfg "bg" (some "%5x") jobs5).signals = []) := by
  intro h
  have hs : (do_bgfg "bg" (some "%5x") jobs5).signals = [(-100, 18)] := by decide
  rw [hs] at h
  cases h.2.2

/-- Claim C7 (amended). Only targets whose first character is neither '%' nor a
digit are treated as usage errors: for those, do_bgfg reports the usage line, makes
no change to any job record, and sends no signal. Malformed targets that merely
start with '%' or a digit are instead interpreted through atoi (so "%5x" acts on
job 5, and "%abc" looks up job 0 and reports "No such job"). -/
theorem claim_C7_usage_error (cmdName : String) (jobs : List job_t) (c : Char)
    (rest : List Char) (h1 : c ≠ '%') (h2 : c.isDigit = false) :
    do_bgfg cmdName (some (String.mk (c :: rest))) jobs =
      ⟨jobs, [], [usageMsg cmdName], none⟩ := by
  simp [do_bgfg, h1, h2]

/-- Witness for C7 at target "abc". -/
theorem claim_C7_witness :
    do_bgfg "bg" (some (String.mk ['a', 'b', 'c'])) jobs5 =
      ⟨jobs5, [], [usageMsg "bg"], none⟩ :=
  claim_C7_usage_error "bg" jobs5 'a' ['b', 'c'] (by decide) (by decide)

/-! ### parseline -/

/-- Accumulator of the parseline scan loop: the argv entries seen so far (in
reverse), the redirection targets and the append flag. -/
structure PLAcc where
  argvR : List String
  infile : Option String
  outfile : Option String
  errfile : Option String
  append_out : Bool
deriving DecidableEq, Repr

/-- strchr-based token grab from the current position: everything up to the first
space (the whole rest when no space remains, as in the C code). -/
def tokStr (cs : List Char) : String :=
  String.mk (cs.takeWhile (fun c => !(c == ' ')))

/-- The rest of the input after the grabbed token (past the delimiting space). -/
def tokRest (cs : List Char) : List Char :=
  (cs.dropWhile (fun c => !(c == ' '))).drop 1

/-- After a redirection operator: skip spaces, then grab the space-delimited file
name, returning it and the remaining input. -/
def fileTok (cs : List Char) : String × List Char :=
  let cs' := cs.dropWhile (fun c => c == ' ')
  (tokStr cs', tokRest cs')

/-- The scan loop of parseline from tsh.c. Each iteration skips spaces and then
consumes either a "2>" / "<" / ">>" / ">" operator followed by its file name, or
one regular argv token. Every iteration consumes at least one character, so fuel
equal to the input length plus one is never exhausted; the wrapper below passes
exactly that. -/
def plLoop : Nat → List Char → PLAcc → PLAcc
  | 0, _, acc => acc
  | _ + 1, [], acc => acc
  | fuel + 1, ' ' :: rest, acc => plLoop fuel rest acc
  | fuel + 1, '2' :: '>' :: rest, acc =>
    let ft := fileTok rest
    plLoop fuel ft.2 { acc with errfile := some ft.1 }
  | fuel + 1, '<' :: rest, acc =>
    let ft := fileTok rest
    plLoop fuel ft.2 { acc with infile := some ft.1 }
  | fuel + 1, '>' :: '>' :: rest, acc =>
    let ft := fileTok rest
    plLoop fuel ft.2 { acc with outfile := some ft.1, append_out := true }
  | fuel + 1, '>' :: rest, acc =>
    let ft := fileTok rest
    plLoop fuel ft.2 { acc with outfile := some ft.1 }
  | fuel + 1, c :: rest, acc =>
    plLoop fuel (tokRest (c :: rest)) { acc with argvR := tokStr (c :: rest) :: acc.argvR }

/-- parseline's scan of the command line. As in the C code, the trailing newline
byte of the fgets line is first replaced by a space. -/
def parselineAcc (cmdline : String) : PLAcc :=
  plLoop (cmdline.data.length + 1) (cmdline.data.dropLast ++ [' '])
    ⟨[], none, none, none, false⟩

/-- The argv array parseline builds before the trailing-'&' check. -/
def rawArgv (cmdline : String) : List String :=
  (parselineAcc cmdline).argvR.reverse

/-- The test `*argv[argc-1] == '&'` from parseline: only the FIRST character of the
last argv entry is examined. -/
def headIsAmp (s : String) : Bool :=
  match s.data with
  | '&' :: _ => true
  | _ => false

/-- Result of parseline: argv (after dropping a backgrounding token), redirection
targets, append flag, and the background return value. -/
structure ParseResult where
  argv : List String
  infile : Option String
  outfile : Option String
  errfile : Option String
  append_out : Bool
  bg : Bool
deriving DecidableEq, Repr

/-- parseline from tsh.c. A blank line (argc == 0) returns 1 (background) with
empty argv; a last argv entry whose first character is '&' sets bg and is dropped
from argv. The last argv entry is the head of the reversed accumulator. -/
def parseline (cmdline : String) : ParseResult :=
  let acc := parselineAcc cmdline
  match acc.argvR with
  | [] => ⟨[], acc.infile, acc.outfile, acc.errfile, acc.append_out, true⟩
  | lastA :: front =>
    if headIsAmp lastA then
      ⟨front.reverse, acc.infile, acc.outfile, acc.errfile, acc.append_out, true⟩
    else
      ⟨(lastA :: front).reverse, acc.infile, acc.outfile, acc.errfile,
        acc.append_out, false⟩

/-- Counterexample to claim C8 as stated. On the line "echo &x" the final token is
"&x", not the bare token "&", so the claim requires background = false; but the
code only tests the first character of the last argv entry, reports background and
drops the whole "&x" token. -/
theorem claim_C8_counterexample :
    (parseline "echo &x\n").bg = true ∧
    rawArgv "echo &x\n" = ["echo", "&x"] ∧
    (parseline "echo &x\n").argv = ["echo"] := by
  refine ⟨rfl, rfl, rfl⟩

/-- Claim C8 (amended). The parse reports the job background exactly when the argv
array is empty (blank line) or the FIRST character of its last entry is '&'
(redirection words are not argv entries, and the rest of the token is not
examined). -/
theorem claim_C8_background_flag (cmdline : String) :
    (parseline cmdline).bg = true ↔
      (rawArgv cmdline = [] ∨ headIsAmp ((rawArgv cmdline).getLastD "") = true) := by
  unfold parseline rawArgv
  cases h : (parselineAcc cmdline).argvR with
  | nil => simp [h]
  | cons a tl =>
    simp only [h]
    have hl : ((a :: tl).reverse).getLastD "" = a := by
      rw [List.getLastD_eq_getLast?, List.getLast?_reverse]
      rfl
    rw [hl]
    by_cases hamp : headIsAmp a <;> simp [hamp]

/-! ### parsepipe and eval -/

/-- The strtok(buf, "|") loop of parsepipe from tsh.c: the maximal nonempty runs of
non-'|' characters, in order. Each iteration consumes at least one character, so
fuel equal to the input length plus one is never exhausted. -/
def splitPipesGo : Nat → List Char → List (List Char)
  | 0, _ => []
  | fuel + 1, cs =>
    match cs.dropWhile (fun c => c == '|') with
    | [] => []
    | c :: tl =>
      (c :: tl.takeWhile (fun d => !(d == '|'))) ::
        splitPipesGo fuel (tl.dropWhile (fun d => !(d == '|')))

/-- parsepipe from tsh.c: split the command line into pipeline stages at '|'. -/
def parsepipe (cmdline : String) : List String :=
  (splitPipesGo (cmdline.data.length + 1) cmdline.data).map String.mk

/-- The observable actions a forked child performs before (and including) execvp,
in program order, as written in the two fork paths of eval. Pipe file descriptors
are named by their index in the pipefds array. -/
inductive ChildAction where
  | restoreMask
  | setpgidSelf
  | dupToStdin (fdIdx : Nat)
  | dupToStdout (fdIdx : Nat)
  | closePipeFd (fdIdx : Nat)
  | redirectIn (file : String)
  | redirectOut (file : String) (append : Bool)
  | redirectErr (file : String)
  | execCmd (argv : List String)
deriving DecidableEq, Repr

/-- The child-side setup of the single-command fork path of eval (tsh.c lines
220-269): restore the signal mask, setpgid(0, 0), apply the three redirections
when present, execvp. -/
def singleChildActions (pr : ParseResult) : List ChildAction :=
  [.restoreMask, .setpgidSelf] ++
  (match pr.infile with | some f => [.redirectIn f] | none => []) ++
  (match pr.outfile with | some f => [.redirectOut f pr.append_out] | none => []) ++
  (match pr.errfile with | some f => [.redirectErr f] | none => []) ++
  [.execCmd pr.argv]

/-- The child-side setup of stage i of an n-stage pipeline in eval (tsh.c lines
303-353): wire stdin/stdout to the neighbouring pipes, close every pipe fd, apply
the input redirection only for stage 0 and the output redirection only for the
last stage (no setpgid call and no error redirection appear on this path), execvp. -/
def pipelineStageActions (pr : ParseResult) (i n : Nat) : List ChildAction :=
  (if 0 < i then [.dupToStdin ((i - 1) * 2)] else []) ++
  (if i < n - 1 then [.dupToStdout (i * 2 + 1)] else []) ++
  (List.range (2 * (n - 1))).map .closePipeFd ++
  (match pr.infile with
   | some f => if i = 0 then [.redirectIn f] else []
   | none => []) ++
  (match pr.outfile with
   | some f => if i = n - 1 then [.redirectOut f pr.append_out] else []
   | none => []) ++
  [.execCmd pr.argv]

/-- Process-group semantics of fork and setpgid(0, 0): a child that calls
setpgid(0, 0) starts a fresh group whose id is its own pid; a child that does not
stays in the process group it inherited from the forking parent (the shell). -/
def childPgid (acts : List ChildAction) (childPid shellPgid : Int) : Int :=
  if ChildAction.setpgidSelf ∈ acts then childPid else shellPgid

/-- Result of one eval call: the table and counter, the printf output, the kill
calls, the forked children's setup actions, the pid waitfg blocks on (foreground
launch or fg builtin), the number of wait(&status) calls of the pipeline branch,
and whether the shell exits (quit builtin). -/
structure EvalOut where
  jobs : List job_t
  nextjid : Int
  output : List String
  signals : List (Int × Nat)
  children : List (List ChildAction)
  waitsFor : Option Int
  pipelineWaits : Nat
  exits : Bool
deriving Repr

/-- eval from tsh.c, for an input line (newline-terminated, as delivered by the
fgets read loop). forkPid is the pid fork returns for the single-command branch.
The builtin dispatch (builtin_cmd) and do_bgfg run inside the single-command
branch; the pipeline branch (taken whenever parsepipe does not yield exactly one
command) forks every stage, closes the pipe fds and waits, without ever touching
the job table. -/
def eval (verbose : Bool) (forkPid : Int) (cmdline : String) (jobs : List job_t)
    (nj : Int) : EvalOut :=
  let commands := parsepipe cmdline
  if commands.length = 1 then
    let pr := parseline cmdline
    match pr.argv with
    | [] => ⟨jobs, nj, [], [], [], none, 0, false⟩
    | cmd0 :: _ =>
      if cmd0 = "quit" then ⟨jobs, nj, [], [], [], none, 0, true⟩
      else if cmd0 = "jobs" then ⟨jobs, nj, listjobs jobs, [], [], none, 0, false⟩
      else if cmd0 = "bg" || cmd0 = "fg" then
        let r := do_bgfg cmd0 ((pr.argv.drop 1).head?) jobs
        ⟨r.jobs, nj, r.output, r.signals, [], r.waitPid, 0, false⟩
      else
        let a := addjob verbose jobs nj forkPid (if pr.bg then .BG else .FG) cmdline
        ⟨a.jobs, a.nextjid,
         a.output ++
           (if pr.bg then
             ["[" ++ toString (pid2jid a.jobs forkPid) ++ "] (" ++ toString forkPid ++
               ") " ++ cmdline]
            else []),
         [], [singleChildActions pr],
         (if pr.bg then none else some forkPid), 0, false⟩
  else
    ⟨jobs, nj, [], [],
     (List.range commands.length).map
       (fun i => pipelineStageActions (parseline (commands.getD i "")) i commands.length),
     none, commands.length, false⟩

/-- Claim C9 (confirmed). Evaluating a pipeline (at least two parsed stages) never
touches the job table: the slots and the next-jid counter are identical before and
after the pipeline branch of eval, which forks the stages and waits on them
synchronously without any addjob, so pipelines are never visible to jobs/bg/fg. -/
theorem claim_C9_pipeline_no_job (verbose : Bool) (forkPid : Int) (cmdline : String)
    (jobs : List job_t) (nj : Int) (h : 2 ≤ (parsepipe cmdline).length) :
    (eval verbose forkPid cmdline jobs nj).jobs = jobs ∧
    (eval verbose forkPid cmdline jobs nj).nextjid = nj := by
  have hne : ¬ (parsepipe cmdline).length = 1 := by omega
  simp [eval, hne]

/-- Witness for C9 on the two-stage pipeline "ls | wc". -/
theorem claim_C9_witness :
    (eval false 57 "ls | wc\n" jobs5 2).jobs = jobs5 ∧
    (eval false 57 "ls | wc\n" jobs5 2).nextjid = 2 :=
  claim_C9_pipeline_no_job false 57 "ls | wc\n" jobs5 2 (by decide)

/-- Claim C6 evaluated at the failing input "ls | wc" (code_bug). The pipeline
branch of eval forks both stages without any setpgid call, so under the fork
semantics each stage keeps the shell's own process group — whatever pid the child
gets and whatever the shell's group is — contradicting the claim that pipeline
stages are placed in a group distinct from the interpreter's. (Contrast: the
single-command fork path does call setpgid(0, 0).) -/
theorem claim_C6_pipeline_pgid (childPid shellPg : Int) :
    (eval false 57 "ls | wc\n" jobs5 2).children.length = 2 ∧
    childPgid ((eval false 57 "ls | wc\n" jobs5 2).children.getD 0 [])
      childPid shellPg = shellPg ∧
    childPgid ((eval false 57 "ls | wc\n" jobs5 2).children.getD 1 [])
      childPid shellPg = shellPg ∧
    ChildAction.setpgidSelf ∈ singleChildActions (parseline "ls\n") := by
  refine ⟨rfl, ?_, ?_, by decide⟩
  · unfold childPgid
    rw [if_neg (by decide)]
  · unfold childPgid
    rw [if_neg (by decide)]

/-! ### Claim C2: job-number uniqueness across add/remove sequences

The job table within one run is driven by a sequence of addjob and deletejob
calls (from launches and from the reaper). `TblState` carries the table and the
counter, plus a ghost flag recording whether some successful add has already
wrapped the counter (assignment made while nextjid ≥ MAXJOBS, so the incremented
counter wrapped to 1). The ghost flag does not influence the computation. -/

inductive TOp where
  | add (pid : Int) (st : JobState) (cmd : String)
  | del (pid : Int)
deriving DecidableEq, Repr

structure TblState where
  jobs : List job_t
  nextjid : Int
  wrapped : Bool
deriving DecidableEq, Repr

def initTbl : TblState := ⟨initjobs 16, 1, false⟩

/-- Apply one table operation, exactly as addjob/deletejob do, tracking the ghost
wrap flag. -/
def applyOp (s : TblState) : TOp → TblState
  | .add pid st cmd =>
    let r := addjob false s.jobs s.nextjid pid st cmd
    ⟨r.jobs, r.nextjid, s.wrapped || (r.ok && decide (MAXJOBS ≤ s.nextjid))⟩
  | .del pid =>
    let r := deletejob s.jobs s.nextjid pid
    ⟨r.jobs, r.nextjid, s.wrapped⟩

/-- Run a sequence of table operations from the initial empty table. Every state
"at every instant" of a run is `runOps ops` for some prefix `ops`. -/
def runOps (ops : List TOp) : TblState := ops.foldl applyOp initTbl

theorem occJids_cons_occ {j : job_t} (h : j.pid ≠ 0) (js : List job_t) :
    occJids (j :: js) = j.jid :: occJids js := by
  simp [occJids, List.filter_cons, h]

theorem occJids_cons_zero {j : job_t} (h : j.pid = 0) (js : List job_t) :
    occJids (j :: js) = occJids js := by
  simp [occJids, List.filter_cons, h]

theorem occJids_le_maxjid {js : List job_t} {x : Int} (h : x ∈ occJids js) :
    x ≤ maxjid js := by
  simp only [occJids, List.mem_map, List.mem_filter] at h
  obtain ⟨j, ⟨hj, _⟩, rfl⟩ := h
  exact jid_le_maxjid hj

theorem addjobGo_occ {pid : Int} {st : JobState} {cmd : String} {nj : Int}
    (hp : pid ≠ 0) :
    ∀ {js js' : List job_t} {a nj' : Int},
      addjobGo pid st cmd nj js = some (js', a, nj') →
      ∃ l r, occJids js = l ++ r ∧ occJids js' = l ++ nj :: r := by
  intro js
  induction js with
  | nil => intro js' a nj' h; cases h
  | cons j rest ih =>
    intro js' a nj' h
    by_cases hj : j.pid = 0
    · simp only [addjobGo, if_pos hj, Option.some.injEq, Prod.mk.injEq] at h
      obtain ⟨h1, _, _⟩ := h
      subst h1
      refine ⟨[], occJids rest, ?_, ?_⟩
      · rw [occJids_cons_zero hj]; rfl
      · rw [occJids_cons_occ (by simpa using hp)]; rfl
    · simp only [addjobGo, if_neg hj] at h
      cases hgo : addjobGo pid st cmd nj rest with
      | none => rw [hgo] at h; cases h
      | some r =>
        obtain ⟨rest', a', nj''⟩ := r
        rw [hgo] at h
        simp only [Option.some.injEq, Prod.mk.injEq] at h
        obtain ⟨h1, _, _⟩ := h
        subst h1
        obtain ⟨l, r, hl, hr⟩ := ih hgo
        exact ⟨j.jid :: l, r, by rw [occJids_cons_occ hj, hl]; rfl,
               by rw [occJids_cons_occ hj, hr]; rfl⟩

theorem maxjid_addjobGo {pid : Int} {st : JobState} {cmd : String} {nj : Int} :
    ∀ {js js' : List job_t} {a nj' : Int},
      addjobGo pid st cmd nj js = some (js', a, nj') →
      maxjid js' ≤ max (maxjid js) nj := by
  intro js
  induction js with
  | nil => intro js' a nj' h; cases h
  | cons j rest ih =>
    intro js' a nj' h
    by_cases hj : j.pid = 0
    · simp only [addjobGo, if_pos hj, Option.some.injEq, Prod.mk.injEq] at h
      obtain ⟨h1, _, _⟩ := h
      subst h1
      rw [maxjid_cons, maxjid_cons]
      simp only []
      omega
    · simp only [addjobGo, if_neg hj] at h
      cases hgo : addjobGo pid st cmd nj rest with
      | none => rw [hgo] at h; cases h
      | some r =>
        obtain ⟨rest', a', nj''⟩ := r
        rw [hgo] at h
        simp only [Option.some.injEq, Prod.mk.injEq] at h
        obtain ⟨h1, _, _⟩ := h
        subst h1
        have := ih hgo
        rw [maxjid_cons, maxjid_cons]
        omega

theorem deletejobGo_occ_sublist {pid : Int} (hp : pid ≠ 0) :
    ∀ {js js' : List job_t}, deletejobGo pid js = some js' →
      (occJids js').Sublist (occJids js) := by
  intro js
  induction js with
  | nil => intro js' h; cases h
  | cons j rest ih =>
    intro js' h
    by_cases hj : j.pid = pid
    · simp only [deletejobGo, if_pos hj, Option.some.injEq] at h
      subst h
      rw [occJids_cons_zero rfl, occJids_cons_occ (hj ▸ hp)]
      exact List.sublist_cons_self _ _
    · simp only [deletejobGo, if_neg hj] at h
      cases hgo : deletejobGo pid rest with
      | none => rw [hgo] at h; cases h
      | some rest' =>
        rw [hgo] at h
        simp only [Option.some.injEq] at h
        subst h
        by_cases hz : j.pid = 0
        · rw [occJids_cons_zero hz, occJids_cons_zero hz]
          exact ih hgo
        · rw [occJids_cons_occ hz, occJids_cons_occ hz]
          exact (ih hgo).cons₂ _

theorem maxjid_deletejobGo {pid : Int} :
    ∀ {js js' : List job_t}, deletejobGo pid js = some js' →
      maxjid js' ≤ maxjid js := by
  intro js
  induction js with
  | nil => intro js' h; cases h
  | cons j rest ih =>
    intro js' h
    by_cases hj : j.pid = pid
    · simp only [deletejobGo, if_pos hj, Option.some.injEq] at h
      subst h
      rw [maxjid_cons, maxjid_cons]
      have := maxjid_nonneg rest
      simp only [clearjob]
      omega
    · simp only [deletejobGo, if_neg hj] at h
      cases hgo : deletejobGo pid rest with
      | none => rw [hgo] at h; cases h
      | some rest' =>
        rw [hgo] at h
        simp only [Option.some.injEq] at h
        subst h
        have := ih hgo
        rw [maxjid_cons, maxjid_cons]
        omega

/-- The inductive invariant for C2: while no wrap has happened, the counter is
strictly above every jid in the table, and the occupied jids are distinct. -/
def TblInv (s : TblState) : Prop :=
  s.wrapped = false → maxjid s.jobs < s.nextjid ∧ (occJids s.jobs).Nodup

theorem tblInv_init : TblInv initTbl :=
  fun _ => ⟨by decide, by decide⟩

theorem tblInv_applyOp {s : TblState} (op : TOp) (h : TblInv s) :
    TblInv (applyOp s op) := by
  cases op with
  | del pid =>
    intro hw
    simp only [applyOp] at hw ⊢
    obtain ⟨hmax, hnd⟩ := h hw
    by_cases h1 : pid < 1
    · simpa [deletejob, h1] using ⟨hmax, hnd⟩
    · cases hgo : deletejobGo pid s.jobs with
      | none => simpa [deletejob, h1, hgo] using ⟨hmax, hnd⟩
      | some js' =>
        have hp : pid ≠ 0 := by omega
        simp only [deletejob, if_neg h1, hgo]
        exact ⟨by omega, hnd.sublist (deletejobGo_occ_sublist hp hgo)⟩
  | add pid st cmd =>
    intro hw
    simp only [applyOp, Bool.or_eq_false_iff, Bool.and_eq_false_iff] at hw
    obtain ⟨hw0, hw1⟩ := hw
    obtain ⟨hmax, hnd⟩ := h hw0
    by_cases h1 : pid < 1
    · simpa [applyOp, addjob, h1] using ⟨hmax, hnd⟩
    · cases hgo : addjobGo pid st cmd s.nextjid s.jobs with
      | none => simpa [applyOp, addjob, h1, hgo] using ⟨hmax, hnd⟩
      | some r =>
        obtain ⟨js', a, nj'⟩ := r
        have hok : (addjob false s.jobs s.nextjid pid st cmd).ok = true := by
          simp [addjob, h1, hgo]
        have hnow : ¬ MAXJOBS ≤ s.nextjid := by
          rcases hw1 with hbad | hdec
          · rw [hok] at hbad; cases hbad
          · simpa using of_decide_eq_false hdec
        have hsmall : s.nextjid + 1 ≤ MAXJOBS := by
          simp only [MAXJOBS] at hnow ⊢; omega
        have hnj' : nj' = s.nextjid + 1 := by
          obtain ⟨_, hn, _⟩ := addjobGo_spec pid st cmd s.nextjid s.jobs js' a nj' hgo
          rw [hn, if_neg (by omega)]
        have hp : pid ≠ 0 := by omega
        obtain ⟨l, rr, hocc, hocc'⟩ := addjobGo_occ hp hgo
        have hmax' := maxjid_addjobGo hgo
        simp only [applyOp, addjob, if_neg h1, hgo]
        constructor
        · omega
        · rw [hocc']
          have hperm : (l ++ s.nextjid :: rr).Perm (s.nextjid :: (l ++ rr)) :=
            List.perm_middle
          rw [hperm.nodup_iff, List.nodup_cons]
          constructor
          · intro hmem
            have hle : s.nextjid ≤ maxjid s.jobs :=
              occJids_le_maxjid (by rw [hocc]; exact hmem)
            omega
          · rw [← hocc]; exact hnd

theorem tblInv_foldl : ∀ (ops : List TOp) (s : TblState), TblInv s →
    TblInv (List.foldl applyOp s ops) := by
  intro ops
  induction ops with
  | nil => intro s h; exact h
  | cons op rest ih => intro s h; exact ih _ (tblInv_applyOp op h)

/-- The operation sequence that wraps the counter and then duplicates jid 1:
fill all 16 slots (jids 1..16, the 16th assignment wraps nextjid to 1), delete
pid 16 (nextjid becomes 16), delete pid 14 (nextjid stays 16), add pid 17 (gets
jid 16, nextjid wraps to 1), add pid 18 (gets jid 1 — but the job with pid 1
still occupies jid 1). -/
def c2Ops : List TOp :=
  [.add 1 .BG "", .add 2 .BG "", .add 3 .BG "", .add 4 .BG "",
   .add 5 .BG "", .add 6 .BG "", .add 7 .BG "", .add 8 .BG "",
   .add 9 .BG "", .add 10 .BG "", .add 11 .BG "", .add 12 .BG "",
   .add 13 .BG "", .add 14 .BG "", .add 15 .BG "", .add 16 .BG "",
   .del 16, .del 14, .add 17 .BG "", .add 18 .BG ""]

/-- Counterexample to claim C2 as stated: after the add/remove sequence `c2Ops`
two occupied slots both carry jid 1, so job numbers are not pairwise distinct
after the next-jid counter wraps. -/
theorem claim_C2_counterexample :
    ¬ (occJids (runOps c2Ops).jobs).Nodup := by decide

/-- Claim C2 (amended). For every sequence of add and remove operations within one
run, the job numbers of the occupied slots are pairwise distinct at every instant
as long as no successful add has yet wrapped the next-jid counter (no add happened
while the counter was at least MAXJOBS = 16); once a wrap occurs, a later add can
reassign a job number that is still in use (see the counterexample). -/
theorem claim_C2_nodup_before_wrap (ops : List TOp)
    (h : (runOps ops).wrapped = false) : (occJids (runOps ops).jobs).Nodup :=
  (tblInv_foldl ops initTbl tblInv_init h).2

/-- Witness for C2 on a short wrap-free run. -/
theorem claim_C2_witness :
    (occJids (runOps [.add 1 .BG "", .add 2 .BG "", .del 1, .add 3 .BG ""]).jobs).Nodup :=
  claim_C2_nodup_before_wrap [.add 1 .BG "", .add 2 .BG "", .del 1, .add 3 .BG ""]
    (by decide)

/-! ### Claim C1: at most one foreground job

The shell mutates the job table from two actors: the sequential main flow
(launches in eval, state flips in do_bgfg) and the asynchronous reaper. The
signal-blocking discipline of tsh.c (SIGCHLD blocked across fork+addjob, all
signals blocked across each reaper iteration) makes each of these steps atomic,
so reachable shell states are exactly the states of the following transition
system. The phase records whether the main flow sits at the top of the read loop
(idle) or is blocked inside waitfg on a pid; reaper steps can interleave at any
time, and waitfg returns only when fgpid no longer reports its pid. -/

theorem fgCount_zero_iff {js : List job_t} :
    fgCount js = 0 ↔ ∀ j ∈ js, j.state ≠ .FG := by
  induction js with
  | nil => simp [fgCount]
  | cons j rest ih =>
    by_cases hj : j.state = .FG
    · simp only [fgCount, if_pos hj]
      constructor
      · intro h; exact absurd h (by omega)
      · intro h; exact absurd hj (h j (List.mem_cons_self j rest))
    · simp only [fgCount, if_neg hj, Nat.zero_add]
      rw [ih]
      constructor
      · intro h x hx
        rcases List.mem_cons.mp hx with rfl | hx'
        · exact hj
        · exact h x hx'
      · intro h x hx; exact h x (List.mem_cons_of_mem j hx)

theorem addjobGo_fg {pid : Int} {st : JobState} {cmd : String} {nj : Int} :
    ∀ {js js' : List job_t} {a nj' : Int},
      addjobGo pid st cmd nj js = some (js', a, nj') → fgCount js = 0 →
      fgCount js' = (if st = .FG then 1 else 0) ∧
      ∀ j' ∈ js', j'.state = .FG → j'.pid = pid := by
  intro js
  induction js with
  | nil => intro js' a nj' h; cases h
  | cons j rest ih =>
    intro js' a nj' h h0
    simp only [fgCount] at h0
    have hrest0 : fgCount rest = 0 := by omega
    by_cases hj : j.pid = 0
    · simp only [addjobGo, if_pos hj, Option.some.injEq, Prod.mk.injEq] at h
      obtain ⟨h1, _, _⟩ := h
      subst h1
      constructor
      · simp only [fgCount, hrest0]
        exact Nat.add_zero _
      · intro j' hj' hfg
        rcases List.mem_cons.mp hj' with rfl | hmem
        · rfl
        · exact absurd hfg (fgCount_zero_iff.mp hrest0 j' hmem)
    · simp only [addjobGo, if_neg hj] at h
      cases hgo : addjobGo pid st cmd nj rest with
      | none => rw [hgo] at h; cases h
      | some r =>
        obtain ⟨rest', a', nj''⟩ := r
        rw [hgo] at h
        simp only [Option.some.injEq, Prod.mk.injEq] at h
        obtain ⟨h1, _, _⟩ := h
        subst h1
        obtain ⟨hc, hm⟩ := ih hgo hrest0
        have hjfg : j.state ≠ .FG := by
          intro hfg; rw [if_pos hfg] at h0; omega
        constructor
        · simp only [fgCount, if_neg hjfg, Nat.zero_add, hc]
        · intro j' hj' hfg
          rcases List.mem_cons.mp hj' with rfl | hmem
          · exact absurd hfg hjfg
          · exact hm j' hmem hfg

theorem addjob_fg {v : Bool} {js : List job_t} {nj pid : Int} {st : JobState}
    {cmd : String} (h0 : fgCount js = 0) :
    fgCount (addjob v js nj pid st cmd).jobs ≤ (if st = .FG then 1 else 0) ∧
    ∀ j' ∈ (addjob v js nj pid st cmd).jobs, j'.state = .FG → j'.pid = pid := by
  by_cases h1 : pid < 1
  · simp only [addjob, if_pos h1]
    exact ⟨by omega, fun j' hj' hfg => absurd hfg (fgCount_zero_iff.mp h0 j' hj')⟩
  · cases hgo : addjobGo pid st cmd nj js with
    | none =>
      simp only [addjob, if_neg h1, hgo]
      exact ⟨by omega, fun j' hj' hfg => absurd hfg (fgCount_zero_iff.mp h0 j' hj')⟩
    | some r =>
      obtain ⟨js', a, nj'⟩ := r
      simp only [addjob, if_neg h1, hgo]
      obtain ⟨hc, hm⟩ := addjobGo_fg hgo h0
      exact ⟨le_of_eq hc, hm⟩

theorem getjobpidGo_pid_eq {pid : Int} :
    ∀ {js : List job_t} {job : job_t}, getjobpidGo pid js = some job →
      job.pid = pid := by
  intro js
  induction js with
  | nil => intro job h; cases h
  | cons j rest ih =>
    intro job h
    by_cases hj : j.pid = pid
    · simp only [getjobpidGo, if_pos hj, Option.some.injEq] at h
      subst h; exact hj
    · simp only [getjobpidGo, if_neg hj] at h
      exact ih h

theorem mem_setStateByPid {pid : Int} {st : JobState} :
    ∀ {js : List job_t} {j' : job_t}, j' ∈ setStateByPid pid st js →
      j' ∈ js ∨ j'.state = st := by
  intro js
  induction js with
  | nil => intro j' h; cases h
  | cons j rest ih =>
    intro j' h
    by_cases hj : j.pid = pid
    · simp only [setStateByPid, if_pos hj] at h
      rcases List.mem_cons.mp h with rfl | hmem
      · exact Or.inr rfl
      · exact Or.inl (List.mem_cons_of_mem j hmem)
    · simp only [setStateByPid, if_neg hj] at h
      rcases List.mem_cons.mp h with rfl | hmem
      · exact Or.inl (List.mem_cons_self _ _)
      · rcases ih hmem with h1 | h2
        · exact Or.inl (List.mem_cons_of_mem j h1)
        · exact Or.inr h2

theorem fgCount_setStateByPid_nonFG {pid : Int} {st : JobState} (hst : st ≠ .FG) :
    ∀ js : List job_t, fgCount (setStateByPid pid st js) ≤ fgCount js := by
  intro js
  induction js with
  | nil => simp [setStateByPid]
  | cons j rest ih =>
    by_cases hj : j.pid = pid
    · simp only [setStateByPid, if_pos hj, fgCount, if_neg hst]
      split <;> omega
    · simp only [setStateByPid, if_neg hj, fgCount]
      omega

theorem setStateByPid_FG {pid : Int} :
    ∀ {js : List job_t} {job : job_t}, getjobpidGo pid js = some job →
      fgCount js = 0 →
      fgCount (setStateByPid pid .FG js) ≤ 1 ∧
      ∀ j' ∈ setStateByPid pid .FG js, j'.state = .FG → j'.pid = job.pid := by
  intro js
  induction js with
  | nil => intro job h; cases h
  | cons j rest ih =>
    intro job h h0
    simp only [fgCount] at h0
    have hrest0 : fgCount rest = 0 := by omega
    by_cases hj : j.pid = pid
    · simp only [getjobpidGo, if_pos hj, Option.some.injEq] at h
      subst h
      simp only [setStateByPid, if_pos hj]
      constructor
      · simp [fgCount, hrest0]
      · intro j' hj' hfg
        rcases List.mem_cons.mp hj' with rfl | hmem
        · rfl
        · exact absurd hfg (fgCount_zero_iff.mp hrest0 j' hmem)
    · simp only [getjobpidGo, if_neg hj] at h
      have hjfg : j.state ≠ .FG := by
        intro hfg; rw [if_pos hfg] at h0; omega
      obtain ⟨hc, hm⟩ := ih h hrest0
      simp only [setStateByPid, if_neg hj]
      constructor
      · simp only [fgCount, if_neg hjfg, Nat.zero_add]; exact hc
      · intro j' hj' hfg
        rcases List.mem_cons.mp hj' with rfl | hmem
        · exact absurd hfg hjfg
        · exact hm j' hmem hfg

theorem mem_setStateByJid {jid : Int} {st : JobState} :
    ∀ {js : List job_t} {j' : job_t}, j' ∈ setStateByJid jid st js →
      j' ∈ js ∨ j'.state = st := by
  intro js
  induction js with
  | nil => intro j' h; cases h
  | cons j rest ih =>
    intro j' h
    by_cases hj : j.jid = jid
    · simp only [setStateByJid, if_pos hj] at h
      rcases List.mem_cons.mp h with rfl | hmem
      · exact Or.inr rfl
      · exact Or.inl (List.mem_cons_of_mem j hmem)
    · simp only [setStateByJid, if_neg hj] at h
      rcases List.mem_cons.mp h with rfl | hmem
      · exact Or.inl (List.mem_cons_self _ _)
      · rcases ih hmem with h1 | h2
        · exact Or.inl (List.mem_cons_of_mem j h1)
        · exact Or.inr h2

theorem fgCount_setStateByJid_nonFG {jid : Int} {st : JobState} (hst : st ≠ .FG) :
    ∀ js : List job_t, fgCount (setStateByJid jid st js) ≤ fgCount js := by
  intro js
  induction js with
  | nil => simp [setStateByJid]
  | cons j rest ih =>
    by_cases hj : j.jid = jid
    · simp only [setStateByJid, if_pos hj, fgCount, if_neg hst]
      split <;> omega
    · simp only [setStateByJid, if_neg hj, fgCount]
      omega

theorem setStateByJid_FG {jid : Int} :
    ∀ {js : List job_t} {job : job_t}, getjobjidGo jid js = some job →
      fgCount js = 0 →
      fgCount (setStateByJid jid .FG js) ≤ 1 ∧
      ∀ j' ∈ setStateByJid jid .FG js, j'.state = .FG → j'.pid = job.pid := by
  intro js
  induction js with
  | nil => intro job h; cases h
  | cons j rest ih =>
    intro job h h0
    simp only [fgCount] at h0
    have hrest0 : fgCount rest = 0 := by omega
    by_cases hj : j.jid = jid
    · simp only [getjobjidGo, if_pos hj, Option.some.injEq] at h
      subst h
      simp only [setStateByJid, if_pos hj]
      constructor
      · simp [fgCount, hrest0]
      · intro j' hj' hfg
        rcases List.mem_cons.mp hj' with rfl | hmem
        · rfl
        · exact absurd hfg (fgCount_zero_iff.mp hrest0 j' hmem)
    · simp only [getjobjidGo, if_neg hj] at h
      have hjfg : j.state ≠ .FG := by
        intro hfg; rw [if_pos hfg] at h0; omega
      obtain ⟨hc, hm⟩ := ih h hrest0
      simp only [setStateByJid, if_neg hj]
      constructor
      · simp only [fgCount, if_neg hjfg, Nat.zero_add]; exact hc
      · intro j' hj' hfg
        rcases List.mem_cons.mp hj' with rfl | hmem
        · exact absurd hfg hjfg
        · exact hm j' hmem hfg

theorem mem_deletejobGo {pid : Int} :
    ∀ {js js' : List job_t}, deletejobGo pid js = some js' →
      ∀ {j' : job_t}, j' ∈ js' → j' ∈ js ∨ j' = clearjob := by
  intro js
  induction js with
  | nil => intro js' h; cases h
  | cons j rest ih =>
    intro js' h j' hj'
    by_cases hj : j.pid = pid
    · simp only [deletejobGo, if_pos hj, Option.some.injEq] at h
      subst h
      rcases List.mem_cons.mp hj' with rfl | hmem
      · exact Or.inr rfl
      · exact Or.inl (List.mem_cons_of_mem j hmem)
    · simp only [deletejobGo, if_neg hj] at h
      cases hgo : deletejobGo pid rest with
      | none => rw [hgo] at h; cases h
      | some rest' =>
        rw [hgo] at h
        simp only [Option.some.injEq] at h
        subst h
        rcases List.mem_cons.mp hj' with rfl | hmem
        · exact Or.inl (List.mem_cons_self _ _)
        · rcases ih hgo hmem with h1 | h2
          · exact Or.inl (List.mem_cons_of_mem j h1)
          · exact Or.inr h2

theorem fgCount_deletejobGo {pid : Int} :
    ∀ {js js' : List job_t}, deletejobGo pid js = some js' →
      fgCount js' ≤ fgCount js := by
  intro js
  induction js with
  | nil => intro js' h; cases h
  | cons j rest ih =>
    intro js' h
    by_cases hj : j.pid = pid
    · simp only [deletejobGo, if_pos hj, Option.some.injEq] at h
      subst h
      by_cases hjf : j.state = .FG
      · simp [fgCount, clearjob, hjf]
      · simp [fgCount, clearjob, hjf]
    · simp only [deletejobGo, if_neg hj] at h
      cases hgo : deletejobGo pid rest with
      | none => rw [hgo] at h; cases h
      | some rest' =>
        rw [hgo] at h
        simp only [Option.some.injEq] at h
        subst h
        have := ih hgo
        by_cases hjf : j.state = .FG
        · simp only [fgCount, if_pos hjf]; omega
        · simp only [fgCount, if_neg hjf]; omega

theorem mem_deletejob_jobs {js : List job_t} {nj pid : Int} {j' : job_t}
    (h : j' ∈ (deletejob js nj pid).jobs) : j' ∈ js ∨ j' = clearjob := by
  by_cases h1 : pid < 1
  · simp only [deletejob, if_pos h1] at h; exact Or.inl h
  · cases hgo : deletejobGo pid js with
    | none => simp only [deletejob, if_neg h1, hgo] at h; exact Or.inl h
    | some js' =>
      simp only [deletejob, if_neg h1, hgo] at h
      exact mem_deletejobGo hgo h

theorem fgCount_deletejob_le {js : List job_t} {nj pid : Int} :
    fgCount (deletejob js nj pid).jobs ≤ fgCount js := by
  by_cases h1 : pid < 1
  · simp [deletejob, if_pos h1]
  · cases hgo : deletejobGo pid js with
    | none => simp [deletejob, if_neg h1, hgo]
    | some js' =>
      simp only [deletejob, if_neg h1, hgo]
      exact fgCount_deletejobGo hgo

theorem handleNotification_fg (jobs : List job_t) (nj pid : Int)
    (st : ChildStatus) :
    fgCount (handleNotification jobs nj pid st).jobs ≤ fgCount jobs ∧
    ∀ j' ∈ (handleNotification jobs nj pid st).jobs, j'.state = .FG →
      j' ∈ jobs := by
  cases st with
  | stopped sig =>
    cases h : getjobpid jobs pid with
    | none => simp only [handleNotification, h]; exact ⟨le_refl _, fun _ h _ => h⟩
    | some job =>
      simp only [handleNotification, h]
      refine ⟨fgCount_setStateByPid_nonFG (by decide) jobs, fun j' hj' hfg => ?_⟩
      rcases mem_setStateByPid hj' with hm | hs
      · exact hm
      · rw [hs] at hfg; cases hfg
  | signaled sig =>
    cases h : getjobpid jobs pid with
    | none => simp only [handleNotification, h]; exact ⟨le_refl _, fun _ h _ => h⟩
    | some job =>
      simp only [handleNotification, h]
      refine ⟨fgCount_deletejob_le, fun j' hj' hfg => ?_⟩
      rcases mem_deletejob_jobs hj' with hm | hs
      · exact hm
      · rw [hs] at hfg; cases hfg
  | exited code =>
    simp only [handleNotification]
    refine ⟨fgCount_deletejob_le, fun j' hj' hfg => ?_⟩
    rcases mem_deletejob_jobs hj' with hm | hs
    · exact hm
    · rw [hs] at hfg; cases hfg

theorem fgpid_of_all_fg {p : Int} :
    ∀ {js : List job_t}, (∀ j ∈ js, j.state = .FG → j.pid = p) →
      fgCount js ≠ 0 → fgpid js = p := by
  intro js
  induction js with
  | nil => intro _ h; simp [fgCount] at h
  | cons j rest ih =>
    intro h hne
    by_cases hj : j.state = .FG
    · simp only [fgpid, if_pos hj]
      exact h j (List.mem_cons_self j rest) hj
    · simp only [fgpid, if_neg hj]
      simp only [fgCount, if_neg hj, Nat.zero_add] at hne
      exact ih (fun x hx => h x (List.mem_cons_of_mem j hx)) hne

theorem do_bgfg_fg_inv (cmdName : String) (arg : Option String)
    (js : List job_t) (h0 : fgCount js = 0) :
    ((do_bgfg cmdName arg js).waitPid = none →
       fgCount (do_bgfg cmdName arg js).jobs = 0) ∧
    (∀ p, (do_bgfg cmdName arg js).waitPid = some p →
       fgCount (do_bgfg cmdName arg js).jobs ≤ 1 ∧
       ∀ j' ∈ (do_bgfg cmdName arg js).jobs, j'.state = .FG → j'.pid = p) := by
  cases arg with
  | none => exact ⟨fun _ => h0, fun p hp => by simp [do_bgfg] at hp⟩
  | some id =>
    cases hid : id.data with
    | nil =>
      constructor
      · intro _; simp only [do_bgfg, hid]; exact h0
      · intro p hp; simp [do_bgfg, hid] at hp
    | cons c cs =>
      by_cases hC : c = '%'
      · cases hj : getjobjid js (atoi (String.mk cs)) with
        | none =>
          constructor
          · intro _; simp only [do_bgfg, hid, if_pos hC, hj]; exact h0
          · intro p hp; simp [do_bgfg, hid, if_pos hC, hj] at hp
        | some job =>
          have hjid1 : ¬ atoi (String.mk cs) < 1 := by
            intro hlt; simp [getjobjid, hlt] at hj
          have hgo : getjobjidGo (atoi (String.mk cs)) js = some job := by
            simpa [getjobjid, hjid1] using hj
          by_cases hfg : cmdName = "fg"
          · constructor
            · intro hp; simp [do_bgfg, hid, if_pos hC, hj, hfg] at hp
            · intro p hp
              simp only [do_bgfg, hid, if_pos hC, hj, if_pos hfg,
                Option.some.injEq] at hp ⊢
              subst hp
              exact setStateByJid_FG hgo h0
          · by_cases hbg : cmdName = "bg"
            · constructor
              · intro _
                simp only [do_bgfg, hid, if_pos hC, hj, if_neg hfg, if_pos hbg]
                have := @fgCount_setStateByJid_nonFG (atoi (String.mk cs))
                  JobState.BG (by decide) js
                omega
              · intro p hp
                simp [do_bgfg, hid, if_pos hC, hj, if_neg hfg, if_pos hbg] at hp
            · constructor
              · intro _
                simp only [do_bgfg, hid, if_pos hC, hj, if_neg hfg, if_neg hbg]
                exact h0
              · intro p hp
                simp [do_bgfg, hid, if_pos hC, hj, if_neg hfg, if_neg hbg] at hp
      · by_cases hd : c.isDigit
        · cases hj : getjobpid js (atoi id) with
          | none =>
            constructor
            · intro _; simp only [do_bgfg, hid, if_neg hC, if_pos hd, hj]; exact h0
            · intro p hp; simp [do_bgfg, hid, if_neg hC, if_pos hd, hj] at hp
          | some job =>
            have hpid1 : ¬ atoi id < 1 := by
              intro hlt; simp [getjobpid, hlt] at hj
            have hgo : getjobpidGo (atoi id) js = some job := by
              simpa [getjobpid, hpid1] using hj
            by_cases hfg : cmdName = "fg"
            · constructor
              · intro hp
                simp [do_bgfg, hid, if_neg hC, if_pos hd, hj, hfg] at hp
              · intro p hp
                simp only [do_bgfg, hid, if_neg hC, if_pos hd, hj, if_pos hfg,
                  Option.some.injEq] at hp ⊢
                subst hp
                exact setStateByPid_FG hgo h0
            · by_cases hbg : cmdName = "bg"
              · constructor
                · intro _
                  simp only [do_bgfg, hid, if_neg hC, if_pos hd, hj, if_neg hfg,
                    if_pos hbg]
                  have := @fgCount_setStateByPid_nonFG (atoi id)
                    JobState.BG (by decide) js
                  omega
                · intro p hp
                  simp [do_bgfg, hid, if_neg hC, if_pos hd, hj, if_neg hfg,
                    if_pos hbg] at hp
              · constructor
                · intro _
                  simp only [do_bgfg, hid, if_neg hC, if_pos hd, hj, if_neg hfg,
                    if_neg hbg]
                  exact h0
                · intro p hp
                  simp [do_bgfg, hid, if_neg hC, if_pos hd, hj, if_neg hfg,
                    if_neg hbg] at hp
        · constructor
          · intro _; simp only [do_bgfg, hid, if_neg hC, if_neg hd]; exact h0
          · intro p hp; simp [do_bgfg, hid, if_neg hC, if_neg hd] at hp

/-- The position of the main flow: at the top of the read loop, or blocked in
waitfg on a pid. -/
inductive Phase where
  | idle
  | waiting (pid : Int)
deriving DecidableEq, Repr

/-- A shell state: the job table, the nextjid counter, and the main-flow phase. -/
structure TshState where
  jobs : List job_t
  nextjid : Int
  phase : Phase
deriving Repr

/-- The state at shell startup: 16 cleared slots, nextjid 1, main flow idle. -/
def initState : TshState := ⟨initjobs 16, 1, .idle⟩

/-- The phase after do_bgfg: waiting when its fg path called waitfg. -/
def waitPhase : Option Int → Phase
  | some p => .waiting p
  | none => .idle

/-- The atomic job-table steps of tsh.c. launch is eval's non-builtin path (fork
then addjob under blocked SIGCHLD, then waitfg for a foreground job); bgfg is the
do_bgfg builtin; reap is one drained notification of sigchld_handler (which can
preempt the main flow at any time, in either phase); wake is waitfg observing that
its pid no longer holds the foreground slot. -/
inductive Step : TshState → TshState → Prop where
  | launch (s : TshState) (verbose : Bool) (pid : Int) (bg : Bool) (cmd : String)
      (hidle : s.phase = .idle) :
      Step s
        ⟨(addjob verbose s.jobs s.nextjid pid (if bg then .BG else .FG) cmd).jobs,
         (addjob verbose s.jobs s.nextjid pid (if bg then .BG else .FG) cmd).nextjid,
         if bg then .idle else .waiting pid⟩
  | bgfg (s : TshState) (cmdName : String) (arg : Option String)
      (hcmd : cmdName = "bg" ∨ cmdName = "fg") (hidle : s.phase = .idle) :
      Step s
        ⟨(do_bgfg cmdName arg s.jobs).jobs, s.nextjid,
         waitPhase (do_bgfg cmdName arg s.jobs).waitPid⟩
  | reap (s : TshState) (pid : Int) (st : ChildStatus) :
      Step s
        ⟨(handleNotification s.jobs s.nextjid pid st).jobs,
         (handleNotification s.jobs s.nextjid pid st).nextjid, s.phase⟩
  | wake (s : TshState) (p : Int) (hw : s.phase = .waiting p)
      (hfg : fgpid s.jobs ≠ p) :
      Step s ⟨s.jobs, s.nextjid, .idle⟩

/-- The reachable shell states. -/
inductive Reachable : TshState → Prop where
  | init : Reachable initState
  | step {s t : TshState} : Reachable s → Step s t → Reachable t

/-- The inductive invariant: no foreground job while the main flow is idle; at
most one — and only the waited-on pid — while it blocks in waitfg. -/
def PhaseInv (s : TshState) : Prop :=
  match s.phase with
  | .idle => fgCount s.jobs = 0
  | .waiting p => fgCount s.jobs ≤ 1 ∧ ∀ j ∈ s.jobs, j.state = .FG → j.pid = p

theorem phaseInv_init : PhaseInv initState := by
  show fgCount (initjobs 16) = 0
  decide

theorem step_phaseInv {s t : TshState} (hinv : PhaseInv s) (hstep : Step s t) :
    PhaseInv t := by
  cases hstep with
  | launch v pid bg cmd hidle =>
    have h0 : fgCount s.jobs = 0 := by
      have h := hinv
      unfold PhaseInv at h
      rw [hidle] at h
      exact h
    cases bg with
    | false =>
      show fgCount (addjob v s.jobs s.nextjid pid
          (if false then JobState.BG else JobState.FG) cmd).jobs ≤ 1 ∧
        ∀ j ∈ (addjob v s.jobs s.nextjid pid
          (if false then JobState.BG else JobState.FG) cmd).jobs,
          j.state = .FG → j.pid = pid
      have h := @addjob_fg v s.jobs s.nextjid pid JobState.FG cmd h0
      simpa using h
    | true =>
      show fgCount (addjob v s.jobs s.nextjid pid
          (if true then JobState.BG else JobState.FG) cmd).jobs = 0
      have h := (@addjob_fg v s.jobs s.nextjid pid JobState.BG cmd h0).1
      simp only [show (JobState.BG = JobState.FG) = False by simp, if_false] at h
      simpa using Nat.le_zero.mp h
  | bgfg cmdName arg hcmd hidle =>
    have h0 : fgCount s.jobs = 0 := by
      have h := hinv
      unfold PhaseInv at h
      rw [hidle] at h
      exact h
    obtain ⟨hnone, hsome⟩ := do_bgfg_fg_inv cmdName arg s.jobs h0
    cases hwp : (do_bgfg cmdName arg s.jobs).waitPid with
    | none =>
      show fgCount (do_bgfg cmdName arg s.jobs).jobs = 0
      exact hnone hwp
    | some p =>
      show fgCount (do_bgfg cmdName arg s.jobs).jobs ≤ 1 ∧
        ∀ j ∈ (do_bgfg cmdName arg s.jobs).jobs, j.state = .FG → j.pid = p
      exact hsome p hwp
  | reap pid st =>
    obtain ⟨hle, hmem⟩ := handleNotification_fg s.jobs s.nextjid pid st
    unfold PhaseInv at hinv
    cases hp : s.phase with
    | idle =>
      rw [hp] at hinv
      have h0 : fgCount s.jobs = 0 := hinv
      show fgCount (handleNotification s.jobs s.nextjid pid st).jobs = 0
      omega
    | waiting p =>
      rw [hp] at hinv
      have h2 : fgCount s.jobs ≤ 1 ∧ ∀ j ∈ s.jobs, j.state = .FG → j.pid = p := hinv
      show fgCount (handleNotification s.jobs s.nextjid pid st).jobs ≤ 1 ∧
        ∀ j ∈ (handleNotification s.jobs s.nextjid pid st).jobs,
          j.state = .FG → j.pid = p
      obtain ⟨h1, h2'⟩ := h2
      refine ⟨by omega, fun j' hj' hfg => h2' j' (hmem j' hj' hfg) hfg⟩
  | wake p hw hfg =>
    have h := hinv
    unfold PhaseInv at h
    rw [hw] at h
    have h2 : fgCount s.jobs ≤ 1 ∧ ∀ j ∈ s.jobs, j.state = .FG → j.pid = p := h
    show fgCount s.jobs = 0
    by_cases hc : fgCount s.jobs = 0
    · exact hc
    · exact absurd (fgpid_of_all_fg h2.2 hc) hfg

theorem reachable_phaseInv {s : TshState} (h : Reachable s) : PhaseInv s := by
  induction h with
  | init => exact phaseInv_init
  | step hr hs ih => exact step_phaseInv ih hs

/-- Claim C1 (confirmed). In every reachable shell state — every interleaving of
launches, bg/fg transitions, reaper steps and waitfg wakeups from the initial
empty table — at most one slot of the job table is in state Foreground. -/
theorem claim_C1_at_most_one_fg (s : TshState) (h : Reachable s) :
    fgCount s.jobs ≤ 1 := by
  have hinv := reachable_phaseInv h
  unfold PhaseInv at hinv
  cases hp : s.phase with
  | idle =>
    rw [hp] at hinv
    have h2 : fgCount s.jobs = 0 := hinv
    omega
  | waiting p =>
    rw [hp] at hinv
    have h2 : fgCount s.jobs ≤ 1 ∧ ∀ j ∈ s.jobs, j.state = .FG → j.pid = p := hinv
    exact h2.1

/-- Witness for C1 at the reachable state right after a foreground launch of
pid 5 from the initial state (one slot is Foreground there). -/
theorem claim_C1_witness :
    fgCount (addjob false (initjobs 16) 1 5
      (if false then JobState.BG else JobState.FG) "sleep 5\n").jobs ≤ 1 :=
  claim_C1_at_most_one_fg
    ⟨(addjob false (initjobs 16) 1 5
        (if false then JobState.BG else JobState.FG) "sleep 5\n").jobs,
      (addjob false (initjobs 16) 1 5
        (if false then JobState.BG else JobState.FG) "sleep 5\n").nextjid,
      if false then Phase.idle else Phase.waiting 5⟩
    (Reachable.step Reachable.init
      (Step.launch initState false 5 false "sleep 5\n" rfl))

end Tsh
